import Mathlib

set_option maxHeartbeats 1000000

/-! Verification development for the email-grouping analysis pipeline:
body-string normalization, tf-idf vectorization, k-means clustering,
feature ranking, query-time retrieval by cosine similarity, and write-back
tagging. The definitions are shallow embeddings of the notebook cells;
floating-point arrays are modelled over ℚ where the computation is exact
arithmetic and over ℝ where logarithms and square roots occur. -/

/-! ## Generic helpers -/

/-- Is an `Except` value a success. -/
def isOkE {ε α : Type} : Except ε α → Bool
  | Except.ok _ => true
  | Except.error _ => false

/-- Python slice `a[:-x:-1]` (used as `cosine_sim.argsort()[:-x:-1]`):
for `x = 0` this is `a[:0:-1]`, the last `len a - 1` elements in reverse
order; for `x ≥ 1` it is the last `x - 1` elements in reverse order. -/
def pySliceTop {α : Type} (a : List α) (x : Nat) : List α :=
  if x = 0 then a.reverse.take (a.length - 1) else a.reverse.take (x - 1)

/-! ## Feature ranking (notebook functions `top_tfidf_feats`,
`top_feats_in_doc`, `top_mean_feats`) -/

/-- Comparison used to model `np.argsort` on a row: ascending by value with
ties in ascending index order (numpy falls back to a stable insertion sort
below its size threshold; every row considered here is that small). -/
def argRelQ (row : List ℚ) (i j : Nat) : Prop :=
  row.getD i 0 < row.getD j 0 ∨ (row.getD i 0 = row.getD j 0 ∧ i ≤ j)

instance argRelQInstDecidable (row : List ℚ) : DecidableRel (argRelQ row) :=
  fun i j => by unfold argRelQ; infer_instance

/-- Indices of `row` sorted ascending by value: `np.argsort(row)`. -/
def argsortQ (row : List ℚ) : List Nat :=
  List.insertionSort (argRelQ row) (List.range row.length)

/-- From `top_tfidf_feats`: `topn_ids = np.argsort(row)[::-1][:top_n]`. -/
def topn_ids (row : List ℚ) (top_n : Nat) : List Nat :=
  (argsortQ row).reverse.take top_n

/-- The notebook's `top_tfidf_feats(row, features, top_n)`. -/
def top_tfidf_feats (row : List ℚ) (features : List String) (top_n : Nat) :
    List (String × ℚ) :=
  (topn_ids row top_n).map (fun i => (features.getD i "", row.getD i 0))

/-- The notebook's `top_feats_in_doc(X, features, row_id, top_n)`. -/
def top_feats_in_doc (X : List (List ℚ)) (features : List String)
    (row_id : Nat) (top_n : Nat) : List (String × ℚ) :=
  top_tfidf_feats (X.getD row_id []) features top_n

/-- The notebook's `top_mean_feats(X, features, grp_ids, min_tfidf, top_n)`.
`if grp_ids:` is Python truthiness, so both `None` and the empty list select
the whole matrix. Then `D[D < min_tfidf] = 0` and the column means feed the
same top-n selection. -/
def top_mean_feats (X : List (List ℚ)) (features : List String)
    (grp_ids : Option (List Nat)) (min_tfidf : ℚ) (top_n : Nat) :
    List (String × ℚ) :=
  let D := match grp_ids with
    | some g => if g.isEmpty then X else g.map (fun i => X.getD i [])
    | none => X
  let D2 := D.map (fun r => r.map (fun v => if v < min_tfidf then 0 else v))
  let means := (List.range (D2.headD []).length).map
    (fun t => (D2.map (fun r => r.getD t 0)).sum / (D2.length : ℚ))
  top_tfidf_feats means features top_n

/-! ## K-means clustering (`KMeans(n_clusters=k, random_state=0)`) -/

def sqDist (u v : List ℚ) : ℚ := (List.zipWith (fun a b => (a - b) ^ 2) u v).sum

def nearestAux (p : List ℚ) : List (List ℚ) → Nat → Nat → ℚ → Nat
  | [], _, bi, _ => bi
  | c :: cs, i, bi, bd =>
    if sqDist p c < bd then nearestAux p cs (i + 1) i (sqDist p c)
    else nearestAux p cs (i + 1) bi bd

/-- Index of the nearest centroid (first minimum, as in `KMeans.predict`). -/
def nearestIdx (cs : List (List ℚ)) (p : List ℚ) : Nat :=
  match cs with
  | [] => 0
  | c :: rest => nearestAux p rest 1 0 (sqDist p c)

def assignLabels (cs : List (List ℚ)) (X : List (List ℚ)) : List Nat :=
  X.map (nearestIdx cs)

/-- Mean of the documents labelled `j`; an empty cluster keeps its previous
centroid (stand-in for sklearn's empty-cluster relocation, on which no
claim depends). -/
def clusterMean (X : List (List ℚ)) (labels : List Nat) (j : Nat)
    (old : List ℚ) : List ℚ :=
  let pts := (X.zip labels).filterMap (fun q => if q.2 = j then some q.1 else none)
  if pts.isEmpty then old
  else (List.range old.length).map
    (fun t => (pts.map (fun r => r.getD t 0)).sum / (pts.length : ℚ))

def updateCenters (X : List (List ℚ)) (labels : List Nat)
    (cs : List (List ℚ)) : List (List ℚ) :=
  (List.range cs.length).map (fun j => clusterMean X labels j (cs.getD j []))

def lloyd : Nat → List (List ℚ) → List (List ℚ) → List (List ℚ)
  | 0, _, cs => cs
  | fuel + 1, X, cs => lloyd fuel X (updateCenters X (assignLabels cs X) cs)

/-- `KMeans(n_clusters=k, random_state=0).fit(x_dense)` followed by reading
the labels. sklearn raises `ValueError` when `n_clusters < 1` or when there
are fewer samples than clusters; otherwise Lloyd iteration runs for the
default `max_iter = 300`. The k-means++ draw under the fixed
`random_state=0` is a deterministic function of the input; it is modelled
by the deterministic choice of the first `k` rows as initial centroids,
which preserves every property at issue (determinism, label range, error
behaviour). -/
def kmeansFit (X : List (List ℚ)) (k : Nat) : Except String (List Nat) :=
  if k = 0 then Except.error "ValueError: n_clusters"
  else if X.length < k then Except.error "ValueError: n_samples"
  else Except.ok (assignLabels (lloyd 300 X (X.take k)) X)

/-! ## Tagger (the `message.Categories` / `message.Save()` loop) -/

structure StoreMessage where
  entryID : String
  categories : String
  saveFails : Bool
deriving DecidableEq

/-- Inner loop of the tagging cell: for one message iterate the dictionary;
on a key match set `Categories` and call `Save()`. Returns the performed
writes `(EntryID, label)` and whether an uncaught save failure aborted. -/
def innerTag (m : StoreMessage) : List (String × String) → List (String × String) × Bool
  | [] => ([], false)
  | (k, v) :: rest =>
    if m.entryID = k then
      if m.saveFails then ([], true)
      else
        let r := innerTag m rest
        ((k, v) :: r.1, r.2)
    else innerTag m rest

/-- Outer tagging loop over all messages. There is no `try` around the
body, so a save failure propagates and the remaining messages are not
visited. -/
def tagRun : List StoreMessage → List (String × String) → List (String × String) × Bool
  | [], _ => ([], false)
  | m :: ms, dict =>
    let r := innerTag m dict
    if r.2 then (r.1, true)
    else
      let rest := tagRun ms dict
      (r.1 ++ rest.1, rest.2)

/-- A message triggers the uncaught failure iff its save fails and some
dictionary key matches its `EntryID`. -/
def abortsOn (dict : List (String × String)) (m : StoreMessage) : Bool :=
  m.saveFails && dict.any (fun kv => kv.1 == m.entryID)

/-! ## Text normalization (the eight body-cleaning statements) -/

/-- Python's `\s` character class. -/
def isPySpace (c : Char) : Bool :=
  c = ' ' || c = '\t' || c = '\n' || c = '\r' || c = '\x0b' || c = '\x0c'

/-- The quoted-reply delimiter of `str.split('\r\n\r\n \r\n\r\nFrom')`. -/
def replyPat : List Char := "\r\n\r\n \r\n\r\nFrom".toList

/-- `s.split(sep)[0]`: the prefix before the first occurrence of `pat`. -/
def takeUntilSeq (pat : List Char) : List Char → List Char
  | [] => []
  | c :: l => if pat.isPrefixOf (c :: l) then [] else c :: takeUntilSeq pat l

/-- One pass of `re.sub(p, ' ', s)` for the token-shaped patterns
`\S*:\S*\s?`, `\S*-\S-\S*\s?` and `\S*@\S*\s?`: a maximal non-whitespace
run satisfying `cond` is replaced, together with at most one following
whitespace character, by a single space. `buf` is the portion of the
current run read so far. -/
def runSub (cond : List Char → Bool) : List Char → List Char → List Char
  | buf, [] => if cond buf then [' '] else buf
  | buf, c :: l =>
    if isPySpace c then
      if cond buf then ' ' :: runSub cond [] l
      else buf ++ c :: runSub cond [] l
    else runSub cond (buf ++ [c]) l

/-- A run matches `\S*:\S*` iff it contains a colon. -/
def condColon (b : List Char) : Bool := b.any (fun c => c == ':')

/-- A run matches `\S*@\S*` iff it contains an at sign. -/
def condAt (b : List Char) : Bool := b.any (fun c => c == '@')

def isDXDAt : List Char → Bool
  | a :: _ :: c :: _ => a == '-' && c == '-'
  | _ => false

/-- A run (all non-whitespace) matches `\S*-\S-\S*` iff somewhere it has a
dash, one character, and a dash at consecutive positions. -/
def hasDXD : List Char → Bool
  | [] => false
  | l@(_ :: rest) => isDXDAt l || hasDXD rest

/-- `re.sub(r'^https?:\/\/.*[\r\n]*', ' ', s)`: anchored at the string
start (no `re.M`); `.*` runs to the first newline and `[\r\n]*` consumes
the newline run. -/
def urlSub (l : List Char) : List Char :=
  if "http://".toList.isPrefixOf l || "https://".toList.isPrefixOf l then
    ' ' :: ((l.dropWhile (fun c => c != '\n')).dropWhile (fun c => c == '\n' || c == '\r'))
  else l

/-- `re.sub(r'[^a-zA-Z0-9]+', ' ', s)`: each maximal run of
non-alphanumeric characters becomes one space. -/
def collapseNonAlnum : Bool → List Char → List Char
  | _, [] => []
  | inRun, c :: l =>
    if c.isAlphanum then c :: collapseNonAlnum false l
    else if inRun then collapseNonAlnum true l
    else ' ' :: collapseNonAlnum true l

/-- Scanner for `re.sub(r'^\d+\s|\s\d+\s|\s\d+$', ' ', s)` away from the
string start. `pend = some (sp, ds)` records a read whitespace character
`sp` followed by digits `ds` that may still become a match. -/
def numTokGo : Option (Char × List Char) → List Char → List Char
  | none, [] => []
  | some (sp, ds), [] => if ds.isEmpty then [sp] else [' ']
  | none, c :: l =>
    if isPySpace c then numTokGo (some (c, [])) l else c :: numTokGo none l
  | some (sp, ds), c :: l =>
    if c.isDigit then numTokGo (some (sp, ds ++ [c])) l
    else if isPySpace c then
      if ds.isEmpty then sp :: numTokGo (some (c, [])) l
      else ' ' :: numTokGo none l
    else sp :: (ds ++ c :: numTokGo none l)

/-- Continuation at position 0 once a non-empty digit prefix `ds` was read:
`^\d+\s` matches iff one whitespace character follows; otherwise no match
can start inside the digit run and scanning resumes. -/
def numTokStart (ds : List Char) : List Char → List Char
  | [] => ds
  | c :: r => if isPySpace c then ' ' :: numTokGo none r else ds ++ numTokGo none (c :: r)

/-- The full numeric-token substitution, including the `^\d+\s` alternative
at position 0. -/
def numTokSub (l : List Char) : List Char :=
  let ds := l.takeWhile (fun c => c.isDigit)
  if ds.isEmpty then numTokGo none l
  else numTokStart ds (l.dropWhile (fun c => c.isDigit))

/-- `re.sub(r' +', ' ', s)`. -/
def collapseSp : Bool → List Char → List Char
  | _, [] => []
  | inRun, c :: l =>
    if c = ' ' then
      if inRun then collapseSp true l else ' ' :: collapseSp true l
    else c :: collapseSp false l

/-- The body-cleaning pipeline of the notebook, in cell order: truncate at
the quoted-reply delimiter, drop `label:value` tokens, drop hyphen codes,
drop a leading URL, drop email addresses, collapse non-alphanumerics, drop
numeric tokens, collapse repeated spaces. -/
def normalizeList (l : List Char) : List Char :=
  collapseSp false
    (numTokSub
      (collapseNonAlnum false
        (runSub condAt []
          (urlSub
            (runSub hasDXD []
              (runSub condColon []
                (takeUntilSeq replyPat l)))))))

def normalizeBody (s : String) : String := String.mk (normalizeList s.toList)

/-! ## Ingestion (the `try/except` enumeration and the `pdraw` dataframe) -/

/-- One raw Outlook item as seen through the COM boundary. `readRaises`
models an attribute access raising inside the `try`; `body` models the
retrieved body, which may be null. -/
structure OutlookMessage where
  entryID : String
  sender : String
  subject : String
  readRaises : Bool
  body : Option String
deriving DecidableEq

structure EmailRow where
  emailID : String
  sender : String
  subject : String
  bodyCell : Option String
deriving DecidableEq

def mkRow (m : OutlookMessage) : EmailRow := ⟨m.entryID, m.sender, m.subject, m.body⟩

/-- The ingestion loop: `try: emaillist.append(...) except: pass`. -/
def ingestEmails (msgs : List OutlookMessage) : List EmailRow :=
  msgs.filterMap (fun m => if m.readRaises then none else some (mkRow m))

/-- One `Body` cell through the cleaning cell: `.str.split(...).str[0]`
propagates a missing value, and the first `.apply(lambda x: re.sub(...))`
then raises `TypeError` on the non-string. -/
def cleanBodyCell : Option String → Except String String
  | none => Except.error "TypeError"
  | some s => Except.ok (normalizeBody s)

/-- The cleaning cell applied to the whole `Body` column: any missing cell
makes the cell raise, aborting the run. -/
def cleanBodyColumn : List EmailRow → Except String (List EmailRow)
  | [] => Except.ok []
  | r :: rows =>
    match cleanBodyCell r.bodyCell with
    | Except.error e => Except.error e
    | Except.ok b =>
      match cleanBodyColumn rows with
      | Except.error e => Except.error e
      | Except.ok rs => Except.ok ({ r with bodyCell := some b } :: rs)

/-! ## Vector space model (`TfidfVectorizer` with default settings:
`smooth_idf=True`, `sublinear_tf=False`, `norm='l2'`), the query transform
and `linear_kernel` -/

def isTokChar (c : Char) : Bool := c.isAlphanum || c = '_'

def tokensAux (cur : List Char) : List Char → List (List Char)
  | [] => if cur.isEmpty then [] else [cur]
  | c :: l =>
    if isTokChar c then tokensAux (cur ++ [c]) l
    else if cur.isEmpty then tokensAux [] l
    else cur :: tokensAux [] l

/-- sklearn's default word analyzer: lowercase, then the maximal runs of
word characters of length at least two (the default `token_pattern`).
Accent stripping is the identity on the ASCII inputs considered. -/
def sklearnTokenize (s : String) : List String :=
  ((tokensAux [] (s.toList.map Char.toLower)).filter (fun w => 2 ≤ w.length)).map
    (fun w => String.mk w)

/-- The fitted vocabulary: corpus terms with stop words removed. sklearn
orders features alphabetically; no property below depends on the order, so
first-occurrence order is used. -/
def buildVocab (docs : List (List String)) (stop : List String) : List String :=
  (docs.flatten.filter (fun t => !(stop.contains t))).dedup

def corpusToks (bodies : List String) : List (List String) := bodies.map sklearnTokenize

def docToks (bodies : List String) (i : Nat) : List String :=
  sklearnTokenize (bodies.getD i "")

/-- Document frequency of term `t` over the corpus. -/
def dfN (bodies : List String) (t : String) : Nat :=
  ((corpusToks bodies).filter (fun d => d.contains t)).length

/-- Smoothed inverse document frequency:
`idf(t) = ln((1 + N) / (1 + df(t))) + 1`. -/
noncomputable def idfR (n dfv : Nat) : ℝ :=
  Real.log ((1 + (n : ℝ)) / (1 + (dfv : ℝ))) + 1

/-- Unnormalized tf-idf weight of term `t` for a token list (document or
query) against the fitted corpus: term count times idf inside the
vocabulary, zero outside it. -/
noncomputable def rawTokW (bodies stop toks : List String) (t : String) : ℝ :=
  if t ∈ buildVocab (corpusToks bodies) stop then
    (toks.count t : ℝ) * idfR bodies.length (dfN bodies t)
  else 0

def vocabF (bodies stop : List String) : Finset String :=
  (buildVocab (corpusToks bodies) stop).toFinset

/-- Euclidean norm of the raw tf-idf vector. -/
noncomputable def tokNorm (bodies stop toks : List String) : ℝ :=
  Real.sqrt (∑ t in vocabF bodies stop, (rawTokW bodies stop toks t) ^ 2)

/-- Stored (l2-normalized) weight, matching the vectorizer's default
`norm='l2'`. -/
noncomputable def tokW (bodies stop toks : List String) (t : String) : ℝ :=
  rawTokW bodies stop toks t / tokNorm bodies stop toks

noncomputable def docW (bodies stop : List String) (i : Nat) (t : String) : ℝ :=
  tokW bodies stop (docToks bodies i) t

noncomputable def queryW (bodies stop : List String) (q : String) (t : String) : ℝ :=
  tokW bodies stop (sklearnTokenize q) t

/-- `linear_kernel(vec_query, x_dense)` entry `i`: the plain dot product of
the stored query vector and stored document vector `i`. -/
noncomputable def simScore (bodies stop : List String) (q : String) (i : Nat) : ℝ :=
  ∑ t in vocabF bodies stop, queryW bodies stop q t * docW bodies stop i t

/-- Cosine similarity of two raw tf-idf vectors. -/
noncomputable def cosSim (bodies stop toks1 toks2 : List String) : ℝ :=
  (∑ t in vocabF bodies stop, rawTokW bodies stop toks1 t * rawTokW bodies stop toks2 t) /
    (tokNorm bodies stop toks1 * tokNorm bodies stop toks2)

/-- The `cosine_sim` array, one entry per corpus document. -/
noncomputable def simsList (bodies stop : List String) (q : String) : List ℝ :=
  (List.range bodies.length).map (fun i => simScore bodies stop q i)

/-- `np.count_nonzero(cosine_sim)`. -/
noncomputable def countNonzero (l : List ℝ) : Nat :=
  (l.filter (fun s => decide (s ≠ 0))).length

def argRelR (row : List ℝ) (i j : Nat) : Prop :=
  row.getD i 0 < row.getD j 0 ∨ (row.getD i 0 = row.getD j 0 ∧ i ≤ j)

noncomputable instance argRelRInstDecidable (row : List ℝ) : DecidableRel (argRelR row) :=
  fun _ _ => Classical.dec _

/-- `cosine_sim.argsort()`. -/
noncomputable def argsortR (row : List ℝ) : List Nat :=
  List.insertionSort (argRelR row) (List.range row.length)

/-- `related_email_indices = cosine_sim.argsort()[:-x:-1]` with
`x = np.count_nonzero(cosine_sim)`. -/
noncomputable def related_email_indices (bodies stop : List String) (q : String) : List Nat :=
  pySliceTop (argsortR (simsList bodies stop q)) (countNonzero (simsList bodies stop q))

/-! ## Theorems. First, facts about the argsort model and top-n selection. -/

instance argRelQTotal (row : List ℚ) : IsTotal Nat (argRelQ row) := by
  constructor
  intro i j
  unfold argRelQ
  rcases lt_trichotomy (row.getD i 0) (row.getD j 0) with h | h | h
  · exact Or.inl (Or.inl h)
  · rcases Nat.le_total i j with hij | hij
    · exact Or.inl (Or.inr ⟨h, hij⟩)
    · exact Or.inr (Or.inr ⟨h.symm, hij⟩)
  · exact Or.inr (Or.inl h)

instance argRelQTrans (row : List ℚ) : IsTrans Nat (argRelQ row) := by
  constructor
  intro a b c hab hbc
  unfold argRelQ at hab hbc ⊢
  rcases hab with h1 | ⟨e1, l1⟩ <;> rcases hbc with h2 | ⟨e2, l2⟩
  · exact Or.inl (h1.trans h2)
  · exact Or.inl (e2 ▸ h1)
  · exact Or.inl (e1 ▸ h2)
  · exact Or.inr ⟨e1.trans e2, l1.trans l2⟩

theorem argsortQ_length (row : List ℚ) : (argsortQ row).length = row.length := by
  simp [argsortQ]

theorem argsortQ_mem (row : List ℚ) (j : Nat) : j ∈ argsortQ row ↔ j < row.length := by
  rw [argsortQ, List.mem_insertionSort, List.mem_range]

theorem argsortQ_nodup (row : List ℚ) : (argsortQ row).Nodup :=
  (List.perm_insertionSort (argRelQ row) (List.range row.length)).nodup_iff.mpr
    (List.nodup_range _)

theorem argsortQ_sorted (row : List ℚ) :
    List.Sorted (argRelQ row) (argsortQ row) :=
  List.sorted_insertionSort (argRelQ row) (List.range row.length)

theorem argsortQ_rev_pairwise (row : List ℚ) :
    (argsortQ row).reverse.Pairwise
      (fun i j => row.getD j 0 < row.getD i 0 ∨ (row.getD i 0 = row.getD j 0 ∧ j < i)) := by
  have hs : (argsortQ row).reverse.Pairwise (fun i j => argRelQ row j i) :=
    List.pairwise_reverse.mpr (argsortQ_sorted row)
  have hn : (argsortQ row).reverse.Pairwise (fun i j => i ≠ j) :=
    (List.nodup_reverse.mpr (argsortQ_nodup row))
  refine (hs.and hn).imp ?_
  rintro i j ⟨hrel, hne⟩
  rcases hrel with h | ⟨he, hle⟩
  · exact Or.inl h
  · exact Or.inr ⟨he.symm, lt_of_le_of_ne hle (Ne.symm hne)⟩

/-- C8: the claim predicts ties broken by ascending vocabulary index and,
when `top_n` exceeds the vocabulary size, only the non-zero terms. On the
row `[1, 1, 0]` the code returns the tied terms in descending index order
and also returns the zero-weight term. -/
theorem C8_counterexample :
    top_tfidf_feats [1, 1, 0] ["aa", "bb", "cc"] 5 =
      [("bb", 1), ("aa", 1), ("cc", 0)] ∧
    top_tfidf_feats [1, 1, 0] ["aa", "bb", "cc"] 5 ≠ [("aa", 1), ("bb", 1)] := by
  decide

/-- C8 (amended): `topTermsForDocument(vector, n)` returns the
`min(n, |vocabulary|)` (term, weight) pairs with the largest weights in
descending weight order, with ties between equal weights broken by
descending vocabulary index; if `n` exceeds the vocabulary size it returns
pairs for all terms, including zero-weight ones. -/
theorem C8_amended_thm (row : List ℚ) (features : List String) (n : Nat) :
    (topn_ids row n).length = min n row.length ∧
    (topn_ids row n).Pairwise
      (fun i j => row.getD j 0 < row.getD i 0 ∨ (row.getD i 0 = row.getD j 0 ∧ j < i)) ∧
    (∀ i ∈ topn_ids row n, ∀ j, j < row.length → j ∉ topn_ids row n →
      row.getD j 0 < row.getD i 0 ∨ (row.getD j 0 = row.getD i 0 ∧ j < i)) ∧
    (row.length ≤ n → ∀ j, j < row.length → j ∈ topn_ids row n) ∧
    top_tfidf_feats row features n =
      (topn_ids row n).map (fun i => (features.getD i "", row.getD i 0)) := by
  have hrevlen : (argsortQ row).reverse.length = row.length := by
    rw [List.length_reverse, argsortQ_length]
  have hrevmem : ∀ j, j ∈ (argsortQ row).reverse ↔ j < row.length := by
    intro j; rw [List.mem_reverse, argsortQ_mem]
  refine ⟨?_, ?_, ?_, ?_, rfl⟩
  · rw [topn_ids, List.length_take, hrevlen]
  · exact (argsortQ_rev_pairwise row).sublist (List.take_sublist n _)
  · intro i hi j hj hjn
    have hsplit : (argsortQ row).reverse =
        (argsortQ row).reverse.take n ++ (argsortQ row).reverse.drop n :=
      (List.take_append_drop n _).symm
    have hpw := argsortQ_rev_pairwise row
    rw [hsplit, List.pairwise_append] at hpw
    have hjrev : j ∈ (argsortQ row).reverse := (hrevmem j).mpr hj
    rw [hsplit, List.mem_append] at hjrev
    have hjdrop : j ∈ (argsortQ row).reverse.drop n := by
      rcases hjrev with h | h
      · exact absurd h hjn
      · exact h
    rcases hpw.2.2 i hi j hjdrop with h | ⟨he, hlt⟩
    · exact Or.inl h
    · exact Or.inr ⟨he.symm, hlt⟩
  · intro hle j hj
    rw [topn_ids, List.take_of_length_le (by rw [hrevlen]; exact hle)]
    exact (hrevmem j).mpr hj

/-- C8 witness: the amended theorem applied concretely to the row
`[1, 1, 0]`, at `n = 2` for the selection clause and at `n = 5` for the
all-terms clause. -/
theorem C8_witness :
    (topn_ids [1, 1, 0] 2).length = min 2 3 ∧
    (([1, 1, 0] : List ℚ).getD 2 0 < ([1, 1, 0] : List ℚ).getD 1 0 ∨
      (([1, 1, 0] : List ℚ).getD 2 0 = ([1, 1, 0] : List ℚ).getD 1 0 ∧ 2 < 1)) ∧
    2 ∈ topn_ids [1, 1, 0] 5 :=
  ⟨(C8_amended_thm [1, 1, 0] ["aa", "bb", "cc"] 2).1,
    (C8_amended_thm [1, 1, 0] ["aa", "bb", "cc"] 2).2.2.1 1 (by decide) 2 (by decide) (by decide),
    (C8_amended_thm [1, 1, 0] ["aa", "bb", "cc"] 5).2.2.2.1 (by norm_num) 2 (by norm_num)⟩

/-- C7: `topTermsForGroup` on the empty group. `top_mean_feats` with
`grp_ids = []` takes the `else` branch of `if grp_ids:` (the empty list is
falsy in Python), so it computes the ranking over the whole corpus instead
of returning an empty result: on the matrix `[[1,0],[1,1]]` it returns the
same non-empty ranking as the whole-corpus call. -/
theorem C7_code_bug :
    top_mean_feats [[1, 0], [1, 1]] ["aa", "bb"] (some []) (1 / 10) 25 =
      top_mean_feats [[1, 0], [1, 1]] ["aa", "bb"] none (1 / 10) 25 ∧
    top_mean_feats [[1, 0], [1, 1]] ["aa", "bb"] (some []) (1 / 10) 25 =
      [("aa", 1), ("bb", 1 / 2)] ∧
    top_mean_feats [[1, 0], [1, 1]] ["aa", "bb"] (some []) (1 / 10) 25 ≠ [] := by
  have h : top_mean_feats [[1, 0], [1, 1]] ["aa", "bb"] (some []) (1 / 10) 25 =
      [("aa", 1), ("bb", 1 / 2)] := by
    norm_num [top_mean_feats, top_tfidf_feats, topn_ids, argsortQ, argRelQ,
      List.insertionSort, List.orderedInsert, List.range_succ, List.getD]
  refine ⟨rfl, h, ?_⟩
  rw [h]
  simp

/-! ## K-means facts -/

theorem lloyd_of_fixed (X cs : List (List ℚ))
    (h : updateCenters X (assignLabels cs X) cs = cs) :
    ∀ n, lloyd n X cs = cs := by
  intro n
  induction n with
  | zero => rfl
  | succ n ih => rw [lloyd, h]; exact ih

theorem nearestAux_lt (p : List ℚ) :
    ∀ (cs : List (List ℚ)) (i bi : Nat) (bd : ℚ), bi < i →
      nearestAux p cs i bi bd < i + cs.length := by
  intro cs
  induction cs with
  | nil => intro i bi bd h; simpa [nearestAux] using h
  | cons c cs ih =>
    intro i bi bd h
    rw [nearestAux]
    split
    · have := ih (i + 1) i (sqDist p c) (Nat.lt_succ_self i)
      simp only [List.length_cons]
      omega
    · have := ih (i + 1) bi bd (h.trans (Nat.lt_succ_self i))
      simp only [List.length_cons]
      omega

theorem nearestIdx_lt (cs : List (List ℚ)) (p : List ℚ) (h : cs ≠ []) :
    nearestIdx cs p < cs.length := by
  cases cs with
  | nil => exact absurd rfl h
  | cons c rest =>
    have := nearestAux_lt p rest 1 0 (sqDist p c) Nat.one_pos
    simpa [nearestIdx, Nat.add_comm] using this

theorem updateCenters_length (X : List (List ℚ)) (labels : List Nat)
    (cs : List (List ℚ)) : (updateCenters X labels cs).length = cs.length := by
  simp [updateCenters]

theorem lloyd_length (X : List (List ℚ)) :
    ∀ (n : Nat) (cs : List (List ℚ)), (lloyd n X cs).length = cs.length := by
  intro n
  induction n with
  | zero => intro cs; rfl
  | succ n ih => intro cs; rw [lloyd, ih, updateCenters_length]

/-- C6: clustering is deterministic for a fixed matrix, fixed `k` and the
fixed seed `random_state=0` — two successful invocations agree — and every
document receives exactly one cluster id, each lying in `[0, k)`. -/
theorem C6_determinism_and_range (X : List (List ℚ)) (k : Nat) (l1 l2 : List Nat)
    (h1 : kmeansFit X k = Except.ok l1) (h2 : kmeansFit X k = Except.ok l2) :
    l1 = l2 ∧ l1.length = X.length ∧ l1.all (fun c => c < k) = true := by
  have he : l1 = l2 := by
    rw [h1] at h2
    exact (Except.ok.injEq _ _).mp h2
  unfold kmeansFit at h1
  by_cases hk : k = 0
  · rw [if_pos hk] at h1; exact absurd h1 (by simp)
  rw [if_neg hk] at h1
  by_cases hlen : X.length < k
  · rw [if_pos hlen] at h1; exact absurd h1 (by simp)
  rw [if_neg hlen] at h1
  have hl1 : l1 = assignLabels (lloyd 300 X (X.take k)) X :=
    ((Except.ok.injEq _ _).mp h1).symm
  have hcslen : (lloyd 300 X (X.take k)).length = k := by
    rw [lloyd_length, List.length_take]
    exact Nat.min_eq_left (Nat.le_of_not_lt hlen)
  have hcsne : lloyd 300 X (X.take k) ≠ [] := by
    intro hnil
    rw [hnil] at hcslen
    exact hk hcslen.symm
  refine ⟨he, ?_, ?_⟩
  · rw [hl1]; simp [assignLabels]
  · rw [hl1, List.all_eq_true]
    intro c hc
    rw [assignLabels, List.mem_map] at hc
    obtain ⟨p, _, hp⟩ := hc
    rw [← hp]
    have hlt := nearestIdx_lt (lloyd 300 X (X.take k)) p hcsne
    rw [hcslen] at hlt
    simp only [decide_eq_true_eq]
    exact hlt

/-- C6 witness: the two-document corpus `[[0],[0]]` with `k = 1`. -/
theorem C6_witness :
    ([0, 0] : List Nat) = [0, 0] ∧
    ([0, 0] : List Nat).length = ([[0], [0]] : List (List ℚ)).length ∧
    ([0, 0] : List Nat).all (fun c => c < 1) = true := by
  have hassign : assignLabels [[0]] [[0], [0]] = [0, 0] := rfl
  have hfix : updateCenters [[0], [0]] (assignLabels [[0]] [[0], [0]]) [[0]] = [[0]] := by
    rw [hassign]
    norm_num [updateCenters, clusterMean, List.range_succ, List.getD,
      List.zip, List.zipWith, List.filterMap]
  have hev : kmeansFit [[0], [0]] 1 = Except.ok [0, 0] := by
    unfold kmeansFit
    norm_num
    rw [lloyd_of_fixed _ _ hfix 300]
    exact hassign
  exact C6_determinism_and_range [[0], [0]] 1 [0, 0] [0, 0] hev hev

/-- C5 counterexample: five documents with only two distinct (and non-zero)
vectors, `k = 5`. The claim predicts an `InsufficientDiversityError`; the
code raises nothing and clustering succeeds. -/
theorem C5_counterexample :
    ([[1], [2], [1], [2], [1]] : List (List ℚ)).dedup.length = 2 ∧
    ([[1], [2], [1], [2], [1]] : List (List ℚ)).all
      (fun v => v.any (fun x => decide (x ≠ 0))) = true ∧
    kmeansFit [[1], [2], [1], [2], [1]] 5 = Except.ok [0, 1, 0, 1, 0] := by
  refine ⟨by decide, by decide, ?_⟩
  have hassign : assignLabels [[1], [2], [1], [2], [1]] [[1], [2], [1], [2], [1]] =
      [0, 1, 0, 1, 0] := by
    norm_num [assignLabels, nearestIdx, nearestAux, sqDist]
  have hfix : updateCenters [[1], [2], [1], [2], [1]]
      (assignLabels [[1], [2], [1], [2], [1]] [[1], [2], [1], [2], [1]])
      [[1], [2], [1], [2], [1]] = [[1], [2], [1], [2], [1]] := by
    rw [hassign]
    norm_num [updateCenters, clusterMean, List.range_succ, List.getD,
      List.zip, List.zipWith, List.filterMap]
  unfold kmeansFit
  norm_num
  rw [lloyd_of_fixed _ _ hfix 300]
  exact hassign

/-- C5 (amended): `cluster(matrix, k, seed)` fails — with sklearn's
`ValueError`, there is no `InsufficientDiversityError` anywhere in the code
— exactly when `k < 1` or the number of documents is smaller than `k`;
having fewer than `k` distinct non-zero vectors does not cause a failure. -/
theorem C5_amended_thm (X : List (List ℚ)) (k : Nat) :
    isOkE (kmeansFit X k) = true ↔ (1 ≤ k ∧ k ≤ X.length) := by
  unfold kmeansFit
  split_ifs with h1 h2 <;> simp [isOkE] <;> omega

/-! ## Tagger facts -/

theorem innerTag_not_abort (m : StoreMessage) (dict : List (String × String))
    (h : abortsOn dict m = false) : (innerTag m dict).2 = false := by
  induction dict with
  | nil => rfl
  | cons kv rest ih =>
    obtain ⟨k, v⟩ := kv
    rw [innerTag]
    by_cases hk : m.entryID = k
    · have hsf : m.saveFails = false := by
        by_contra hsf
        rw [Bool.not_eq_false] at hsf
        rw [abortsOn, hsf, Bool.true_and, List.any_cons] at h
        simp [hk.symm] at h
      rw [if_pos hk, if_neg (by rw [hsf]; exact Bool.false_ne_true)]
      exact ih (by rw [abortsOn, hsf, Bool.false_and])
    · rw [if_neg hk]
      refine ih ?_
      rw [abortsOn, List.any_cons] at h
      rcases Bool.and_eq_false_iff.mp h with h1 | h2
      · rw [abortsOn, h1, Bool.false_and]
      · rw [abortsOn, Bool.and_eq_false_iff]
        exact Or.inr (Bool.or_eq_false_iff.mp h2).2

theorem innerTag_abort (m : StoreMessage) (dict : List (String × String))
    (h : abortsOn dict m = true) : innerTag m dict = ([], true) := by
  induction dict with
  | nil => simp [abortsOn] at h
  | cons kv rest ih =>
    obtain ⟨k, v⟩ := kv
    have hsf : m.saveFails = true := (Bool.and_eq_true_iff.mp h).1
    rw [innerTag]
    by_cases hk : m.entryID = k
    · rw [if_pos hk, if_pos hsf]
    · rw [if_neg hk]
      refine ih ?_
      have hany := (Bool.and_eq_true_iff.mp h).2
      rw [List.any_cons] at hany
      rcases Bool.or_eq_true_iff.mp hany with h1 | h2
      · exact absurd (beq_iff_eq.mp h1).symm hk
      · rw [abortsOn, hsf, Bool.true_and]; exact h2

theorem tagRun_append_ok (dict : List (String × String)) :
    ∀ (pre rest : List StoreMessage), (∀ p ∈ pre, abortsOn dict p = false) →
      tagRun (pre ++ rest) dict =
        ((tagRun pre dict).1 ++ (tagRun rest dict).1, (tagRun rest dict).2) := by
  intro pre
  induction pre with
  | nil => intro rest _; simp [tagRun]
  | cons m pre ih =>
    intro rest hpre
    have hm : (innerTag m dict).2 = false :=
      innerTag_not_abort m dict (hpre m (List.mem_cons_self m pre))
    have hpre' : ∀ p ∈ pre, abortsOn dict p = false :=
      fun p hp => hpre p (List.mem_cons_of_mem m hp)
    rw [List.cons_append, tagRun, tagRun]
    rw [if_neg (by rw [hm]; exact Bool.false_ne_true),
      if_neg (by rw [hm]; exact Bool.false_ne_true)]
    rw [ih rest hpre']
    simp [List.append_assoc]

theorem tagRun_abort_head (dict : List (String × String)) (m : StoreMessage)
    (post : List StoreMessage) (h : abortsOn dict m = true) :
    tagRun (m :: post) dict = ([], true) := by
  rw [tagRun, innerTag_abort m dict h]
  simp

/-- C9 counterexample: a batch of two messages, both matched by the query
dictionary, where the first save fails. The claim says the failure is
caught and the second message is still tagged; in the code the failure
propagates, the batch ends with zero successful writes, although the
second message alone would have been written. -/
theorem C9_counterexample :
    tagRun [⟨"a", "unknown", true⟩, ⟨"b", "unknown", false⟩]
      [("a", "bctw"), ("b", "bctw")] = ([], true) ∧
    (tagRun [⟨"b", "unknown", false⟩] [("a", "bctw"), ("b", "bctw")]).1 =
      [("b", "bctw")] := by
  decide

/-- C9 (amended): a store write failure during tagging is not caught: the
first message whose save fails (and which the dictionary matches) aborts
the whole tagging batch, the writes are exactly those of the messages
before it, and the messages after it are not processed. -/
theorem C9_amended_thm (pre post : List StoreMessage) (m : StoreMessage)
    (dict : List (String × String))
    (hpre : ∀ p ∈ pre, abortsOn dict p = false) (hm : abortsOn dict m = true) :
    tagRun (pre ++ m :: post) dict = ((tagRun pre dict).1, true) := by
  rw [tagRun_append_ok dict pre (m :: post) hpre, tagRun_abort_head dict m post hm]
  simp

/-- C9 witness: the amended theorem at a concrete three-message batch whose
middle message fails its save. -/
theorem C9_witness :
    tagRun ([⟨"b", "unknown", false⟩] ++ ⟨"a", "unknown", true⟩ :: [⟨"c", "unknown", false⟩])
      [("a", "bctw"), ("b", "bctw"), ("c", "bctw")] =
      ((tagRun [⟨"b", "unknown", false⟩] [("a", "bctw"), ("b", "bctw"), ("c", "bctw")]).1, true) :=
  C9_amended_thm [⟨"b", "unknown", false⟩] [⟨"c", "unknown", false⟩] ⟨"a", "unknown", true⟩
    [("a", "bctw"), ("b", "bctw"), ("c", "bctw")] (by decide) (by decide)

/-! ## Ingestion and missing-body facts -/

theorem ingestEmails_eq (msgs : List OutlookMessage) :
    ingestEmails msgs = (msgs.filter (fun m => !m.readRaises)).map mkRow := by
  induction msgs with
  | nil => rfl
  | cons m msgs ih =>
    simp only [ingestEmails, List.filterMap_cons, List.filter_cons] at ih ⊢
    cases hr : m.readRaises
    · simp only [hr, Bool.not_false, if_true, if_neg Bool.false_ne_true, List.map_cons]
      rw [ih]
    · simp only [hr, Bool.not_true, if_true, if_neg Bool.false_ne_true]
      exact ih

theorem cleanBodyColumn_ok_iff (rows : List EmailRow) :
    isOkE (cleanBodyColumn rows) = rows.all (fun r => r.bodyCell.isSome) := by
  induction rows with
  | nil => rfl
  | cons r rows ih =>
    rw [cleanBodyColumn]
    cases hb : r.bodyCell with
    | none =>
      simp only [hb, cleanBodyCell, isOkE, List.all_cons, Option.isSome_none,
        Bool.false_and]
    | some s =>
      simp only [hb, cleanBodyCell]
      cases hc : cleanBodyColumn rows with
      | error e =>
        rw [hc] at ih
        simp only [hc, isOkE, List.all_cons, hb, Option.isSome_some,
          Bool.true_and] at ih ⊢
        exact ih
      | ok rs =>
        rw [hc] at ih
        simp only [hc, isOkE, List.all_cons, hb, Option.isSome_some,
          Bool.true_and] at ih ⊢
        exact ih

/-- C3 counterexample: a missing (`None`) body reaching the cleaning cell.
The claim predicts the empty string; the code's `.apply(lambda x:
re.sub(..., x))` raises `TypeError` on the non-string cell. -/
theorem C3_counterexample :
    cleanBodyCell none = Except.error "TypeError" ∧
    cleanBodyCell none ≠ Except.ok "" := by
  exact ⟨rfl, fun h => Except.noConfusion h⟩

/-- C3 (amended): messages whose attribute reads raise are silently skipped
at ingestion (the `except: pass` keeps the batch going), a body that is
present as a string is cleaned without failure, and a missing body that
reaches the cleaning step raises an error for the whole column instead of
yielding the empty string. -/
theorem C3_amended_thm :
    (∀ msgs : List OutlookMessage,
      ingestEmails msgs = (msgs.filter (fun m => !m.readRaises)).map mkRow) ∧
    (∀ s : String, cleanBodyCell (some s) = Except.ok (normalizeBody s)) ∧
    (∀ rows : List EmailRow,
      isOkE (cleanBodyColumn rows) = rows.all (fun r => r.bodyCell.isSome)) :=
  ⟨ingestEmails_eq, fun _ => rfl, cleanBodyColumn_ok_iff⟩

/-- C2 counterexample to idempotence: on `"1 2"` the numeric-token pattern
`^\d+\s|\s\d+\s|\s\d+$` consumes the delimiting whitespace of a match, so
alternating numeric tokens survive one pass and are removed by the next:
one application gives `" 2"`, a second application gives `" "`. -/
theorem C2_counterexample :
    normalizeBody "1 2" = " 2" ∧
    normalizeBody (normalizeBody "1 2") = " " ∧
    normalizeBody (normalizeBody "1 2") ≠ normalizeBody "1 2" := by
  decide

/-! ## Normalization pipeline facts -/

theorem takeUntilSeq_subset (pat : List Char) :
    ∀ (l : List Char) (c : Char), c ∈ takeUntilSeq pat l → c ∈ l := by
  intro l
  induction l with
  | nil => intro c h; exact absurd h (List.not_mem_nil c)
  | cons a l ih =>
    intro c h
    rw [takeUntilSeq] at h
    by_cases hp : pat.isPrefixOf (a :: l) = true
    · rw [if_pos hp] at h; exact absurd h (List.not_mem_nil c)
    · rw [if_neg hp] at h
      rcases List.mem_cons.mp h with h | h
      · exact h ▸ List.mem_cons_self a l
      · exact List.mem_cons_of_mem a (ih c h)

theorem runSub_mem (cond : List Char → Bool) :
    ∀ (l buf : List Char) (c : Char), c ∈ runSub cond buf l →
      c ∈ buf ∨ c ∈ l ∨ c = ' ' := by
  intro l
  induction l with
  | nil =>
    intro buf c h
    rw [runSub] at h
    by_cases hc : cond buf = true
    · rw [if_pos hc] at h
      right; right
      simpa using h
    · rw [if_neg hc] at h
      exact Or.inl h
  | cons a l ih =>
    intro buf c h
    rw [runSub] at h
    by_cases hs : isPySpace a = true
    · rw [if_pos hs] at h
      by_cases hc : cond buf = true
      · rw [if_pos hc] at h
        rcases List.mem_cons.mp h with h | h
        · exact Or.inr (Or.inr h)
        · rcases ih [] c h with h | h | h
          · exact absurd h (List.not_mem_nil c)
          · exact Or.inr (Or.inl (List.mem_cons_of_mem a h))
          · exact Or.inr (Or.inr h)
      · rw [if_neg hc] at h
        rcases List.mem_append.mp h with h | h
        · exact Or.inl h
        · rcases List.mem_cons.mp h with h | h
          · exact Or.inr (Or.inl (h ▸ List.mem_cons_self a l))
          · rcases ih [] c h with h | h | h
            · exact absurd h (List.not_mem_nil c)
            · exact Or.inr (Or.inl (List.mem_cons_of_mem a h))
            · exact Or.inr (Or.inr h)
    · rw [if_neg hs] at h
      rcases ih (buf ++ [a]) c h with h | h | h
      · rcases List.mem_append.mp h with h | h
        · exact Or.inl h
        · have : c = a := by simpa using h
          exact Or.inr (Or.inl (this ▸ List.mem_cons_self a l))
      · exact Or.inr (Or.inl (List.mem_cons_of_mem a h))
      · exact Or.inr (Or.inr h)

theorem urlSub_mem (l : List Char) (c : Char) (h : c ∈ urlSub l) :
    c ∈ l ∨ c = ' ' := by
  rw [urlSub] at h
  by_cases hp : ("http://".toList.isPrefixOf l || "https://".toList.isPrefixOf l) = true
  · rw [if_pos hp] at h
    rcases List.mem_cons.mp h with h | h
    · exact Or.inr h
    · left
      have h1 := (List.dropWhile_sublist (fun c => c == '\n' || c == '\r')).subset h
      exact (List.dropWhile_sublist (fun c => c != '\n')).subset h1
  · rw [if_neg hp] at h
    exact Or.inl h

theorem collapseNonAlnum_mem :
    ∀ (l : List Char) (b : Bool) (c : Char), c ∈ collapseNonAlnum b l →
      c ∈ l ∨ c = ' ' := by
  intro l
  induction l with
  | nil => intro b c h; exact absurd h (List.not_mem_nil c)
  | cons a l ih =>
    intro b c h
    rw [collapseNonAlnum] at h
    by_cases ha : a.isAlphanum = true
    · rw [if_pos ha] at h
      rcases List.mem_cons.mp h with h | h
      · exact Or.inl (h ▸ List.mem_cons_self a l)
      · rcases ih false c h with h | h
        · exact Or.inl (List.mem_cons_of_mem a h)
        · exact Or.inr h
    · rw [if_neg ha] at h
      by_cases hb : b = true
      · rw [if_pos hb] at h
        rcases ih true c h with h | h
        · exact Or.inl (List.mem_cons_of_mem a h)
        · exact Or.inr h
      · rw [if_neg hb] at h
        rcases List.mem_cons.mp h with h | h
        · exact Or.inr h
        · rcases ih true c h with h | h
          · exact Or.inl (List.mem_cons_of_mem a h)
          · exact Or.inr h

theorem collapseNonAlnum_alnumSp :
    ∀ (l : List Char) (b : Bool) (c : Char), c ∈ collapseNonAlnum b l →
      c.isAlphanum = true ∨ c = ' ' := by
  intro l
  induction l with
  | nil => intro b c h; exact absurd h (List.not_mem_nil c)
  | cons a l ih =>
    intro b c h
    rw [collapseNonAlnum] at h
    by_cases ha : a.isAlphanum = true
    · rw [if_pos ha] at h
      rcases List.mem_cons.mp h with h | h
      · exact Or.inl (h ▸ ha)
      · exact ih false c h
    · rw [if_neg ha] at h
      by_cases hb : b = true
      · rw [if_pos hb] at h
        exact ih true c h
      · rw [if_neg hb] at h
        rcases List.mem_cons.mp h with h | h
        · exact Or.inr h
        · exact ih true c h

theorem numTokGo_mem :
    ∀ (l : List Char) (pend : Option (Char × List Char)) (c : Char),
      c ∈ numTokGo pend l →
        (∃ sp ds, pend = some (sp, ds) ∧ (c = sp ∨ c ∈ ds)) ∨ c ∈ l ∨ c = ' ' := by
  intro l
  induction l with
  | nil =>
    intro pend c h
    match pend with
    | none => exact absurd h (List.not_mem_nil c)
    | some (sp, ds) =>
      rw [numTokGo] at h
      by_cases hds : ds.isEmpty = true
      · rw [if_pos hds] at h
        have : c = sp := by simpa using h
        exact Or.inl ⟨sp, ds, rfl, Or.inl this⟩
      · rw [if_neg hds] at h
        right; right
        simpa using h
  | cons a l ih =>
    intro pend c h
    match pend with
    | none =>
      rw [numTokGo] at h
      by_cases hs : isPySpace a = true
      · rw [if_pos hs] at h
        rcases ih (some (a, [])) c h with ⟨sp, ds, he, hc⟩ | h | h
        · obtain ⟨h1, h2⟩ := Prod.mk.injEq .. ▸ (Option.some.injEq _ _).mp he
          rcases hc with hc | hc
          · exact Or.inr (Or.inl (by rw [hc, ← h1]; exact List.mem_cons_self a l))
          · rw [← h2] at hc; exact absurd hc (List.not_mem_nil c)
        · exact Or.inr (Or.inl (List.mem_cons_of_mem a h))
        · exact Or.inr (Or.inr h)
      · rw [if_neg hs] at h
        rcases List.mem_cons.mp h with h | h
        · exact Or.inr (Or.inl (h ▸ List.mem_cons_self a l))
        · rcases ih none c h with ⟨sp, ds, he, _⟩ | h | h
          · exact absurd he (Option.noConfusion)
          · exact Or.inr (Or.inl (List.mem_cons_of_mem a h))
          · exact Or.inr (Or.inr h)
    | some (sp, ds) =>
      rw [numTokGo] at h
      by_cases hd : a.isDigit = true
      · rw [if_pos hd] at h
        rcases ih (some (sp, ds ++ [a])) c h with ⟨sp', ds', he, hc⟩ | h | h
        · obtain ⟨h1, h2⟩ := Prod.mk.injEq .. ▸ (Option.some.injEq _ _).mp he
          rcases hc with hc | hc
          · exact Or.inl ⟨sp, ds, rfl, Or.inl (by rw [hc, ← h1])⟩
          · rw [← h2] at hc
            rcases List.mem_append.mp hc with hc | hc
            · exact Or.inl ⟨sp, ds, rfl, Or.inr hc⟩
            · have : c = a := by simpa using hc
              exact Or.inr (Or.inl (this ▸ List.mem_cons_self a l))
        · exact Or.inr (Or.inl (List.mem_cons_of_mem a h))
        · exact Or.inr (Or.inr h)
      · rw [if_neg hd] at h
        by_cases hs : isPySpace a = true
        · rw [if_pos hs] at h
          by_cases hds : ds.isEmpty = true
          · rw [if_pos hds] at h
            rcases List.mem_cons.mp h with h | h
            · exact Or.inl ⟨sp, ds, rfl, Or.inl h⟩
            · rcases ih (some (a, [])) c h with ⟨sp', ds', he, hc⟩ | h | h
              · obtain ⟨h1, h2⟩ := Prod.mk.injEq .. ▸ (Option.some.injEq _ _).mp he
                rcases hc with hc | hc
                · exact Or.inr (Or.inl (by rw [hc, ← h1]; exact List.mem_cons_self a l))
                · rw [← h2] at hc; exact absurd hc (List.not_mem_nil c)
              · exact Or.inr (Or.inl (List.mem_cons_of_mem a h))
              · exact Or.inr (Or.inr h)
          · rw [if_neg hds] at h
            rcases List.mem_cons.mp h with h | h
            · exact Or.inr (Or.inr h)
            · rcases ih none c h with ⟨sp', ds', he, _⟩ | h | h
              · exact absurd he (Option.noConfusion)
              · exact Or.inr (Or.inl (List.mem_cons_of_mem a h))
              · exact Or.inr (Or.inr h)
        · rw [if_neg hs] at h
          rcases List.mem_cons.mp h with h | h
          · exact Or.inl ⟨sp, ds, rfl, Or.inl h⟩
          · rcases List.mem_append.mp h with h | h
            · exact Or.inl ⟨sp, ds, rfl, Or.inr h⟩
            · rcases List.mem_cons.mp h with h | h
              · exact Or.inr (Or.inl (h ▸ List.mem_cons_self a l))
              · rcases ih none c h with ⟨sp', ds', he, _⟩ | h | h
                · exact absurd he (Option.noConfusion)
                · exact Or.inr (Or.inl (List.mem_cons_of_mem a h))
                · exact Or.inr (Or.inr h)

theorem numTokSub_mem (l : List Char) (c : Char) (h : c ∈ numTokSub l) :
    c ∈ l ∨ c = ' ' := by
  rw [numTokSub] at h
  by_cases hds : (l.takeWhile (fun c => c.isDigit)).isEmpty = true
  · rw [if_pos hds] at h
    rcases numTokGo_mem l none c h with ⟨sp, ds, he, _⟩ | h | h
    · exact absurd he (Option.noConfusion)
    · exact Or.inl h
    · exact Or.inr h
  · rw [if_neg hds] at h
    rcases hrest : l.dropWhile (fun c => c.isDigit) with _ | ⟨a, r⟩
    · rw [hrest, numTokStart] at h
      exact Or.inl ((List.takeWhile_sublist (fun c => c.isDigit)).subset h)
    · rw [hrest, numTokStart] at h
      have hsubrest : ∀ d : Char, d ∈ a :: r → d ∈ l := by
        intro d hd
        rw [← hrest] at hd
        exact (List.dropWhile_sublist (fun c => c.isDigit)).subset hd
      by_cases hs : isPySpace a = true
      · rw [if_pos hs] at h
        rcases List.mem_cons.mp h with h | h
        · exact Or.inr h
        · rcases numTokGo_mem r none c h with ⟨sp, ds, he, _⟩ | h | h
          · exact absurd he (Option.noConfusion)
          · exact Or.inl (hsubrest c (List.mem_cons_of_mem a h))
          · exact Or.inr h
      · rw [if_neg hs] at h
        rcases List.mem_append.mp h with h | h
        · exact Or.inl ((List.takeWhile_sublist (fun c => c.isDigit)).subset h)
        · rcases numTokGo_mem (a :: r) none c h with ⟨sp, ds, he, _⟩ | h | h
          · exact absurd he (Option.noConfusion)
          · exact Or.inl (hsubrest c h)
          · exact Or.inr h

theorem collapseSp_mem :
    ∀ (l : List Char) (b : Bool) (c : Char), c ∈ collapseSp b l → c ∈ l ∨ c = ' ' := by
  intro l
  induction l with
  | nil => intro b c h; exact absurd h (List.not_mem_nil c)
  | cons a l ih =>
    intro b c h
    rw [collapseSp] at h
    by_cases ha : a = ' '
    · rw [if_pos ha] at h
      by_cases hb : b = true
      · rw [if_pos hb] at h
        rcases ih true c h with h | h
        · exact Or.inl (List.mem_cons_of_mem a h)
        · exact Or.inr h
      · rw [if_neg hb] at h
        rcases List.mem_cons.mp h with h | h
        · exact Or.inr h
        · rcases ih true c h with h | h
          · exact Or.inl (List.mem_cons_of_mem a h)
          · exact Or.inr h
    · rw [if_neg ha] at h
      rcases List.mem_cons.mp h with h | h
      · exact Or.inl (h ▸ List.mem_cons_self a l)
      · rcases ih false c h with h | h
        · exact Or.inl (List.mem_cons_of_mem a h)
        · exact Or.inr h

theorem collapseSp_true_head :
    ∀ (l : List Char) (c : Char) (rest : List Char),
      collapseSp true l = c :: rest → c ≠ ' ' := by
  intro l
  induction l with
  | nil => intro c rest h; exact absurd h (by rw [collapseSp]; exact fun h => List.noConfusion h)
  | cons a l ih =>
    intro c rest h
    rw [collapseSp] at h
    by_cases ha : a = ' '
    · rw [if_pos ha, if_pos rfl] at h
      exact ih c rest h
    · rw [if_neg ha] at h
      rw [← (List.cons.injEq ..).mp h |>.1]
      exact ha

theorem collapseSp_chain :
    ∀ (l : List Char) (b : Bool),
      List.Chain' (fun x y => ¬(x = ' ' ∧ y = ' ')) (collapseSp b l) := by
  intro l
  induction l with
  | nil => intro b; rw [collapseSp]; exact List.chain'_nil
  | cons a l ih =>
    intro b
    rw [collapseSp]
    by_cases ha : a = ' '
    · rw [if_pos ha]
      by_cases hb : b = true
      · rw [if_pos hb]; exact ih true
      · rw [if_neg hb]
        rw [List.chain'_cons']
        refine ⟨?_, ih true⟩
        intro c hc
        rcases hh : collapseSp true l with _ | ⟨d, rest⟩
        · rw [hh] at hc; exact absurd hc (by simp)
        · rw [hh] at hc
          have hdc : d = c := by simpa using hc
          exact fun hand => collapseSp_true_head l d rest hh (hdc.trans hand.2)
    · rw [if_neg ha]
      rw [List.chain'_cons']
      refine ⟨?_, ih false⟩
      intro c _
      exact fun hand => ha hand.1

theorem condColon_false (b : List Char) (h : ':' ∉ b) : condColon b = false := by
  rw [condColon]
  rw [List.any_eq_false]
  intro c hc
  intro hbeq
  exact h ((beq_iff_eq.mp hbeq) ▸ hc)

theorem condAt_false (b : List Char) (h : '@' ∉ b) : condAt b = false := by
  rw [condAt]
  rw [List.any_eq_false]
  intro c hc
  intro hbeq
  exact h ((beq_iff_eq.mp hbeq) ▸ hc)

theorem hasDXD_false : ∀ b : List Char, '-' ∉ b → hasDXD b = false := by
  intro b
  induction b with
  | nil => intro _; rfl
  | cons a rest ih =>
    intro h
    have ha : a ≠ '-' := fun e => h (e ▸ List.mem_cons_self a rest)
    have hdxd : isDXDAt (a :: rest) = false := by
      rcases rest with _ | ⟨x, rest2⟩
      · rfl
      · rcases rest2 with _ | ⟨y, rest3⟩
        · rfl
        · rw [isDXDAt]
          rw [Bool.and_eq_false_iff]
          exact Or.inl (beq_eq_false_iff_ne.mpr ha)
    rw [hasDXD, hdxd, Bool.false_or]
    exact ih (fun hm => h (List.mem_cons_of_mem a hm))

theorem runSub_append_id (cond : List Char → Bool) :
    ∀ (l buf : List Char),
      (∀ b : List Char, (∀ c ∈ b, c ∈ buf ∨ c ∈ l) → cond b = false) →
      runSub cond buf l = buf ++ l := by
  intro l
  induction l with
  | nil =>
    intro buf h
    rw [runSub, if_neg (by rw [h buf (fun c hc => Or.inl hc)]; exact Bool.false_ne_true),
      List.append_nil]
  | cons a l ih =>
    intro buf h
    rw [runSub]
    by_cases hs : isPySpace a = true
    · rw [if_pos hs,
        if_neg (by rw [h buf (fun c hc => Or.inl hc)]; exact Bool.false_ne_true)]
      rw [ih [] (fun b hb => h b (fun c hc => Or.inr (by
        rcases hb c hc with hb' | hb'
        · exact absurd hb' (List.not_mem_nil c)
        · exact List.mem_cons_of_mem a hb'))), List.nil_append]
    · rw [if_neg hs]
      rw [ih (buf ++ [a]) (fun b hb => h b (fun c hc => by
        rcases hb c hc with hb' | hb'
        · rcases List.mem_append.mp hb' with hb'' | hb''
          · exact Or.inl hb''
          · have : c = a := by simpa using hb''
            exact Or.inr (this ▸ List.mem_cons_self a l)
        · exact Or.inr (List.mem_cons_of_mem a hb')))]
      simp

theorem isPrefixOf_mem : ∀ (p l : List Char), p.isPrefixOf l = true →
    ∀ c ∈ p, c ∈ l := by
  intro p
  induction p with
  | nil => intro l _ c hc; exact absurd hc (List.not_mem_nil c)
  | cons a p ih =>
    intro l h c hc
    rcases l with _ | ⟨b, l⟩
    · simp [List.isPrefixOf] at h
    · rw [List.isPrefixOf, Bool.and_eq_true_iff] at h
      rcases List.mem_cons.mp hc with hc | hc
      · rw [hc, beq_iff_eq.mp h.1]
        exact List.mem_cons_self b l
      · exact List.mem_cons_of_mem b (ih l h.2 c hc)

theorem urlSub_id (l : List Char) (h : ':' ∉ l) : urlSub l = l := by
  rw [urlSub]
  rw [if_neg]
  rw [Bool.or_eq_true]
  rintro (hp | hp)
  · exact h (isPrefixOf_mem _ l hp ':' (by decide))
  · exact h (isPrefixOf_mem _ l hp ':' (by decide))

theorem replyPat_head : replyPat = '\r' :: "\n\r\n \r\n\r\nFrom".toList := by decide

theorem takeUntilSeq_id (l : List Char) (h : '\r' ∉ l) :
    takeUntilSeq replyPat l = l := by
  induction l with
  | nil => rfl
  | cons a l ih =>
    rw [takeUntilSeq, if_neg, ih (fun hm => h (List.mem_cons_of_mem a hm))]
    rw [replyPat_head]
    rw [List.isPrefixOf]
    rw [Bool.and_eq_true_iff]
    rintro ⟨h1, _⟩
    exact h ((beq_iff_eq.mp h1) ▸ List.mem_cons_self a l)

theorem collapseNonAlnum_id :
    ∀ l : List Char, (∀ c ∈ l, c.isAlphanum = true ∨ c = ' ') →
      List.Chain' (fun x y => ¬(x = ' ' ∧ y = ' ')) l →
      (collapseNonAlnum false l = l ∧
        ((∀ d, l.head? = some d → d ≠ ' ') → collapseNonAlnum true l = l)) := by
  intro l
  induction l with
  | nil => intro _ _; exact ⟨rfl, fun _ => rfl⟩
  | cons a l ih =>
    intro hall hch
    have hall' : ∀ c ∈ l, c.isAlphanum = true ∨ c = ' ' :=
      fun c hc => hall c (List.mem_cons_of_mem a hc)
    have hch' : List.Chain' (fun x y => ¬(x = ' ' ∧ y = ' ')) l :=
      (List.chain'_cons'.mp hch).2
    rcases hall a (List.mem_cons_self a l) with ha | ha
    · constructor
      · rw [collapseNonAlnum, if_pos ha, (ih hall' hch').1]
      · intro _
        rw [collapseNonAlnum, if_pos ha, (ih hall' hch').1]
    · have hna : a.isAlphanum = false := by rw [ha]; decide
      constructor
      · rw [collapseNonAlnum, if_neg (by rw [hna]; exact Bool.false_ne_true),
          if_neg Bool.false_ne_true]
        have hhead : ∀ d, l.head? = some d → d ≠ ' ' := by
          intro d hd hds
          have := (List.chain'_cons'.mp hch).1 d hd
          exact this ⟨ha, hds⟩
        rw [ha]
        rw [(ih hall' hch').2 hhead]
      · intro hcontr
        exact absurd ha (hcontr a rfl)

theorem numTokGo_id :
    ∀ l : List Char, (∀ c ∈ l, c.isDigit = false) →
      (numTokGo none l = l ∧
        ∀ sp : Char, numTokGo (some (sp, [])) l = sp :: l) := by
  intro l
  induction l with
  | nil => intro _; exact ⟨rfl, fun sp => rfl⟩
  | cons a l ih =>
    intro hdf
    have hdf' : ∀ c ∈ l, c.isDigit = false :=
      fun c hc => hdf c (List.mem_cons_of_mem a hc)
    have hda : a.isDigit = false := hdf a (List.mem_cons_self a l)
    constructor
    · rw [numTokGo]
      by_cases hs : isPySpace a = true
      · rw [if_pos hs, (ih hdf').2 a]
      · rw [if_neg hs, (ih hdf').1]
    · intro sp
      rw [numTokGo, if_neg (by rw [hda]; exact Bool.false_ne_true)]
      by_cases hs : isPySpace a = true
      · rw [if_pos hs,
          if_pos (show ([] : List Char).isEmpty = true from rfl), (ih hdf').2 a]
      · rw [if_neg hs]
        rw [(ih hdf').1]
        rfl

theorem numTokSub_id (l : List Char) (hdf : ∀ c ∈ l, c.isDigit = false) :
    numTokSub l = l := by
  rw [numTokSub]
  have hds : l.takeWhile (fun c => c.isDigit) = [] := by
    rcases l with _ | ⟨a, l⟩
    · rfl
    · rw [List.takeWhile_cons,
        if_neg (by rw [hdf a (List.mem_cons_self a l)]; exact Bool.false_ne_true)]
  rw [hds]
  rw [if_pos (show ([] : List Char).isEmpty = true from rfl)]
  exact (numTokGo_id l hdf).1

theorem collapseSp_id :
    ∀ l : List Char, List.Chain' (fun x y => ¬(x = ' ' ∧ y = ' ')) l →
      (collapseSp false l = l ∧
        ((∀ d, l.head? = some d → d ≠ ' ') → collapseSp true l = l)) := by
  intro l
  induction l with
  | nil => intro _; exact ⟨rfl, fun _ => rfl⟩
  | cons a l ih =>
    intro hch
    have hch' : List.Chain' (fun x y => ¬(x = ' ' ∧ y = ' ')) l :=
      (List.chain'_cons'.mp hch).2
    by_cases ha : a = ' '
    · constructor
      · rw [collapseSp, if_pos ha, if_neg Bool.false_ne_true]
        have hhead : ∀ d, l.head? = some d → d ≠ ' ' := by
          intro d hd hds
          exact (List.chain'_cons'.mp hch).1 d hd ⟨ha, hds⟩
        rw [ha, (ih hch').2 hhead]
      · intro hcontr
        exact absurd ha (hcontr a rfl)
    · constructor
      · rw [collapseSp, if_neg ha, (ih hch').1]
      · intro _
        rw [collapseSp, if_neg ha, (ih hch').1]

theorem normalizeList_props (l : List Char) :
    (∀ c ∈ normalizeList l, c.isAlphanum = true ∨ c = ' ') ∧
    List.Chain' (fun x y => ¬(x = ' ' ∧ y = ' ')) (normalizeList l) ∧
    ((∀ c ∈ l, c.isDigit = false) → ∀ c ∈ normalizeList l, c.isDigit = false) := by
  refine ⟨?_, ?_, ?_⟩
  · intro c hc
    rw [normalizeList] at hc
    rcases collapseSp_mem _ false c hc with hc | hc
    · rcases numTokSub_mem _ c hc with hc | hc
      · exact collapseNonAlnum_alnumSp _ false c hc
      · exact Or.inr hc
    · exact Or.inr hc
  · rw [normalizeList]
    exact collapseSp_chain _ false
  · intro hdf c hc
    rw [normalizeList] at hc
    have hsp : (' ' : Char).isDigit = false := by decide
    rcases collapseSp_mem _ false c hc with hc | hc
    swap
    · exact hc ▸ hsp
    rcases numTokSub_mem _ c hc with hc | hc
    swap
    · exact hc ▸ hsp
    rcases collapseNonAlnum_mem _ false c hc with hc | hc
    swap
    · exact hc ▸ hsp
    rcases runSub_mem condAt _ [] c hc with hc | hc | hc
    · exact absurd hc (List.not_mem_nil c)
    swap
    · exact hc ▸ hsp
    rcases urlSub_mem _ c hc with hc | hc
    swap
    · exact hc ▸ hsp
    rcases runSub_mem hasDXD _ [] c hc with hc | hc | hc
    · exact absurd hc (List.not_mem_nil c)
    swap
    · exact hc ▸ hsp
    rcases runSub_mem condColon _ [] c hc with hc | hc | hc
    · exact absurd hc (List.not_mem_nil c)
    swap
    · exact hc ▸ hsp
    exact hdf c (takeUntilSeq_subset replyPat _ c hc)

/-- C2 (amended): the body-cleaning transform is idempotent on every input
containing no decimal digit; the counterexample shows genuine
non-idempotence, and it hinges on the numeric-token pattern consuming the
whitespace between adjacent numeric tokens. -/
theorem C2_amended_thm (s : String)
    (h : s.toList.all (fun c => !c.isDigit) = true) :
    normalizeBody (normalizeBody s) = normalizeBody s := by
  have hdf0 : ∀ c ∈ s.toList, c.isDigit = false := by
    intro c hc
    have := List.all_eq_true.mp h c hc
    simpa using this
  obtain ⟨halnum, hchain, hdfp⟩ := normalizeList_props s.toList
  have hdf : ∀ c ∈ normalizeList s.toList, c.isDigit = false := hdfp hdf0
  have hnr : '\r' ∉ normalizeList s.toList := by
    intro hm
    rcases halnum '\r' hm with h | h <;> simp at h
  have hnc : ':' ∉ normalizeList s.toList := by
    intro hm
    rcases halnum ':' hm with h | h <;> simp at h
  have hnd : '-' ∉ normalizeList s.toList := by
    intro hm
    rcases halnum '-' hm with h | h <;> simp at h
  have hna : '@' ∉ normalizeList s.toList := by
    intro hm
    rcases halnum '@' hm with h | h <;> simp at h
  have hcolon : runSub condColon [] (normalizeList s.toList) = normalizeList s.toList := by
    rw [runSub_append_id condColon _ [] (fun b hb => condColon_false b (fun hcb => hnc (by
      rcases hb ':' hcb with h | h
      · exact absurd h (List.not_mem_nil _)
      · exact h))), List.nil_append]
  have hdash : runSub hasDXD [] (normalizeList s.toList) = normalizeList s.toList := by
    rw [runSub_append_id hasDXD _ [] (fun b hb => hasDXD_false b (fun hcb => hnd (by
      rcases hb '-' hcb with h | h
      · exact absurd h (List.not_mem_nil _)
      · exact h))), List.nil_append]
  have hat : runSub condAt [] (normalizeList s.toList) = normalizeList s.toList := by
    rw [runSub_append_id condAt _ [] (fun b hb => condAt_false b (fun hcb => hna (by
      rcases hb '@' hcb with h | h
      · exact absurd h (List.not_mem_nil _)
      · exact h))), List.nil_append]
  have hfix : normalizeList (normalizeList s.toList) = normalizeList s.toList := by
    conv_lhs => rw [normalizeList]
    rw [takeUntilSeq_id _ hnr, hcolon, hdash, urlSub_id _ hnc, hat,
      (collapseNonAlnum_id _ halnum hchain).1, numTokSub_id _ hdf,
      (collapseSp_id _ hchain).1]
  show String.mk (normalizeList (String.mk (normalizeList s.toList)).toList) =
    String.mk (normalizeList s.toList)
  rw [show (String.mk (normalizeList s.toList)).toList = normalizeList s.toList from rfl,
    hfix]

/-- C2 witness: the amended idempotence applied to the digit-free string
`"ab cd"`. -/
theorem C2_witness :
    ("ab cd".toList.all (fun c => !c.isDigit)) = true ∧
    normalizeBody (normalizeBody "ab cd") = normalizeBody "ab cd" :=
  ⟨by decide, C2_amended_thm "ab cd" (by decide)⟩

/-! ## Vector space model facts -/

theorem dfN_le (bodies : List String) (t : String) : dfN bodies t ≤ bodies.length := by
  rw [dfN]
  calc ((corpusToks bodies).filter (fun d => d.contains t)).length
      ≤ (corpusToks bodies).length := List.length_filter_le _ _
    _ = bodies.length := by rw [corpusToks, List.length_map]

theorem one_le_idfR (n dfv : Nat) (h : dfv ≤ n) : 1 ≤ idfR n dfv := by
  rw [idfR]
  have hpos : (0 : ℝ) < 1 + (dfv : ℝ) := by positivity
  have harg : 1 ≤ (1 + (n : ℝ)) / (1 + (dfv : ℝ)) := by
    rw [le_div_iff₀ hpos, one_mul]
    have : (dfv : ℝ) ≤ (n : ℝ) := by exact_mod_cast h
    linarith
  have := Real.log_nonneg harg
  linarith

theorem rawTokW_nonneg (bodies stop toks : List String) (t : String) :
    0 ≤ rawTokW bodies stop toks t := by
  rw [rawTokW]
  split_ifs with hmem
  · apply mul_nonneg (Nat.cast_nonneg _)
    have := one_le_idfR bodies.length (dfN bodies t) (dfN_le bodies t)
    linarith
  · exact le_refl 0

theorem tokNorm_nonneg (bodies stop toks : List String) :
    0 ≤ tokNorm bodies stop toks := Real.sqrt_nonneg _

theorem tokNorm_sq (bodies stop toks : List String) :
    tokNorm bodies stop toks ^ 2 =
      ∑ t in vocabF bodies stop, rawTokW bodies stop toks t ^ 2 := by
  rw [tokNorm, Real.sq_sqrt]
  exact Finset.sum_nonneg (fun t _ => sq_nonneg _)

theorem rawTokW_eq_zero_of_norm_zero (bodies stop toks : List String)
    (h : tokNorm bodies stop toks = 0) :
    ∀ t ∈ vocabF bodies stop, rawTokW bodies stop toks t = 0 := by
  intro t ht
  have hsum : ∑ u in vocabF bodies stop, rawTokW bodies stop toks u ^ 2 = 0 := by
    rw [← tokNorm_sq, h]
    ring
  have := (Finset.sum_eq_zero_iff_of_nonneg
    (fun u _ => sq_nonneg (rawTokW bodies stop toks u))).mp hsum t ht
  exact pow_eq_zero_iff (two_ne_zero) |>.mp this

theorem tokW_nonneg (bodies stop toks : List String) (t : String) :
    0 ≤ tokW bodies stop toks t :=
  div_nonneg (rawTokW_nonneg bodies stop toks t) (tokNorm_nonneg bodies stop toks)

theorem tokW_unit_or_zero (bodies stop toks : List String) :
    (∑ t in vocabF bodies stop, tokW bodies stop toks t ^ 2 = 1) ∨
    (∀ t ∈ vocabF bodies stop, tokW bodies stop toks t = 0) := by
  by_cases hz : tokNorm bodies stop toks = 0
  · right
    intro t ht
    rw [tokW, hz, div_zero]
  · left
    have hns : tokNorm bodies stop toks ^ 2 ≠ 0 := pow_ne_zero 2 hz
    calc ∑ t in vocabF bodies stop, tokW bodies stop toks t ^ 2
        = ∑ t in vocabF bodies stop,
            rawTokW bodies stop toks t ^ 2 / tokNorm bodies stop toks ^ 2 := by
          apply Finset.sum_congr rfl
          intro t _
          rw [tokW, div_pow]
      _ = (∑ t in vocabF bodies stop, rawTokW bodies stop toks t ^ 2) /
            tokNorm bodies stop toks ^ 2 := (Finset.sum_div _ _ _).symm
      _ = tokNorm bodies stop toks ^ 2 / tokNorm bodies stop toks ^ 2 := by
          rw [tokNorm_sq]
      _ = 1 := div_self hns

theorem simScore_eq_cosSim (bodies stop : List String) (q : String) (i : Nat) :
    simScore bodies stop q i =
      cosSim bodies stop (sklearnTokenize q) (docToks bodies i) := by
  rw [simScore, cosSim, Finset.sum_div]
  apply Finset.sum_congr rfl
  intro t _
  rw [queryW, docW, tokW, tokW, div_mul_div_comm]

theorem simScore_nonneg (bodies stop : List String) (q : String) (i : Nat) :
    0 ≤ simScore bodies stop q i :=
  Finset.sum_nonneg fun t _ =>
    mul_nonneg (tokW_nonneg bodies stop (sklearnTokenize q) t)
      (tokW_nonneg bodies stop (docToks bodies i) t)

theorem simScore_le_one (bodies stop : List String) (q : String) (i : Nat) :
    simScore bodies stop q i ≤ 1 := by
  have hdef : simScore bodies stop q i =
      ∑ t in vocabF bodies stop,
        tokW bodies stop (sklearnTokenize q) t * tokW bodies stop (docToks bodies i) t := rfl
  rcases tokW_unit_or_zero bodies stop (sklearnTokenize q) with hq | hq
  · rcases tokW_unit_or_zero bodies stop (docToks bodies i) with hd | hd
    · have hkey : 0 ≤ ∑ t in vocabF bodies stop,
          (tokW bodies stop (sklearnTokenize q) t - tokW bodies stop (docToks bodies i) t) ^ 2 :=
        Finset.sum_nonneg fun t _ => sq_nonneg _
      have hexp : ∑ t in vocabF bodies stop,
          (tokW bodies stop (sklearnTokenize q) t - tokW bodies stop (docToks bodies i) t) ^ 2 =
          (∑ t in vocabF bodies stop, tokW bodies stop (sklearnTokenize q) t ^ 2) -
            2 * (∑ t in vocabF bodies stop,
              tokW bodies stop (sklearnTokenize q) t * tokW bodies stop (docToks bodies i) t) +
            (∑ t in vocabF bodies stop, tokW bodies stop (docToks bodies i) t ^ 2) := by
        have hterm : ∀ t ∈ vocabF bodies stop,
            (tokW bodies stop (sklearnTokenize q) t - tokW bodies stop (docToks bodies i) t) ^ 2 =
            tokW bodies stop (sklearnTokenize q) t ^ 2 -
              2 * (tokW bodies stop (sklearnTokenize q) t * tokW bodies stop (docToks bodies i) t) +
              tokW bodies stop (docToks bodies i) t ^ 2 := by
          intro t _
          ring
        rw [Finset.sum_congr rfl hterm, Finset.sum_add_distrib, Finset.sum_sub_distrib,
          ← Finset.mul_sum]
      rw [hexp, hq, hd] at hkey
      rw [hdef]
      linarith
    · have hzero : simScore bodies stop q i = 0 := by
        rw [hdef]
        apply Finset.sum_eq_zero
        intro t ht
        rw [hd t ht, mul_zero]
      rw [hzero]
      exact zero_le_one
  · have hzero : simScore bodies stop q i = 0 := by
      rw [hdef]
      apply Finset.sum_eq_zero
      intro t ht
      rw [hq t ht, zero_mul]
    rw [hzero]
    exact zero_le_one

/-- C10: every stored document vector and every stored query vector is
l2-normalized (unit sum of squared weights, or all-zero when the document
has no vocabulary terms), the `linear_kernel` dot product equals the cosine
similarity of the underlying raw tf-idf vectors, and every similarity score
lies in `[0, 1]`. -/
theorem C10_invariants (bodies stop : List String) (q : String) (i : Nat) :
    ((∑ t in vocabF bodies stop, docW bodies stop i t ^ 2 = 1) ∨
      ∀ t ∈ vocabF bodies stop, docW bodies stop i t = 0) ∧
    ((∑ t in vocabF bodies stop, queryW bodies stop q t ^ 2 = 1) ∨
      ∀ t ∈ vocabF bodies stop, queryW bodies stop q t = 0) ∧
    simScore bodies stop q i =
      cosSim bodies stop (sklearnTokenize q) (docToks bodies i) ∧
    0 ≤ simScore bodies stop q i ∧ simScore bodies stop q i ≤ 1 :=
  ⟨tokW_unit_or_zero bodies stop (docToks bodies i),
    tokW_unit_or_zero bodies stop (sklearnTokenize q),
    simScore_eq_cosSim bodies stop q i,
    simScore_nonneg bodies stop q i,
    simScore_le_one bodies stop q i⟩

/-- C4 (amended): the stored weight times the document's Euclidean norm
recovers the unnormalized weight tf × idf — i.e. the code computes
`tf × idf` and then l2-normalizes each document vector, so the stored
weight is `tf × idf` divided by the norm — and idf with the smoothed
formula `log((1+N)/(1+df))+1` is strictly decreasing in df. -/
theorem C4_amended_thm :
    (∀ (bodies stop : List String) (i : Nat) (t : String),
      docW bodies stop i t * tokNorm bodies stop (docToks bodies i) =
        rawTokW bodies stop (docToks bodies i) t) ∧
    (∀ (n d1 d2 : Nat), d1 < d2 → idfR n d2 < idfR n d1) := by
  constructor
  · intro bodies stop i t
    by_cases hz : tokNorm bodies stop (docToks bodies i) = 0
    · rw [docW, tokW, hz, div_zero, zero_mul]
      by_cases hmem : t ∈ vocabF bodies stop
      · exact (rawTokW_eq_zero_of_norm_zero bodies stop (docToks bodies i) hz t hmem).symm
      · rw [rawTokW, if_neg (fun hv => hmem (List.mem_toFinset.mpr hv))]
    · rw [docW, tokW, div_mul_cancel₀ _ hz]
  · intro n d1 d2 hlt
    rw [idfR, idfR]
    have h1 : (0 : ℝ) < 1 + (d1 : ℝ) := by positivity
    have harg : (1 + (n : ℝ)) / (1 + (d2 : ℝ)) < (1 + (n : ℝ)) / (1 + (d1 : ℝ)) := by
      apply div_lt_div_of_pos_left (by positivity) h1
      have : (d1 : ℝ) < (d2 : ℝ) := by exact_mod_cast hlt
      linarith
    have := Real.log_lt_log (by positivity) harg
    linarith

/-- C4 witness: the norm relation at the one-document corpus `"aa aa bb"`
and the strict idf decrease from df 0 to df 1 at corpus size 2. -/
theorem C4_witness :
    docW ["aa aa bb"] [] 0 "aa" * tokNorm ["aa aa bb"] [] (docToks ["aa aa bb"] 0) =
      rawTokW ["aa aa bb"] [] (docToks ["aa aa bb"] 0) "aa" ∧
    idfR 2 1 < idfR 2 0 :=
  ⟨C4_amended_thm.1 ["aa aa bb"] [] 0 "aa", C4_amended_thm.2 2 0 1 (by norm_num)⟩

/-- C4 counterexample: in the one-document corpus `"aa aa bb"` the term
`"aa"` has tf = 2 and idf = 1, so tf × idf = 2, but the stored weight is
the l2-normalized `2 / sqrt 5 ≠ 2`: the weight of a term in a document is
not tf × idf. -/
theorem C4_counterexample :
    docW ["aa aa bb"] [] 0 "aa" ≠
      ((docToks ["aa aa bb"] 0).count "aa" : ℝ) *
        idfR (["aa aa bb"] : List String).length (dfN ["aa aa bb"] "aa") := by
  have htok : docToks ["aa aa bb"] 0 = ["aa", "aa", "bb"] := by decide
  have hvocab : buildVocab (corpusToks ["aa aa bb"]) [] = ["aa", "bb"] := by decide
  have hsumf : ∀ f : String → ℝ,
      (∑ t in vocabF ["aa aa bb"] [], f t) = f "aa" + f "bb" := by
    intro f
    rw [vocabF, hvocab, List.toFinset_cons, List.toFinset_cons, List.toFinset_nil,
      Finset.sum_insert (by decide), Finset.sum_insert (by decide), Finset.sum_empty,
      add_zero]
  have hlen : (["aa aa bb"] : List String).length = 1 := rfl
  have hdfa : dfN ["aa aa bb"] "aa" = 1 := by decide
  have hdfb : dfN ["aa aa bb"] "bb" = 1 := by decide
  have hidf : idfR 1 1 = 1 := by
    rw [idfR]
    norm_num
  have hca : (["aa", "aa", "bb"] : List String).count "aa" = 2 := by decide
  have hcb : (["aa", "aa", "bb"] : List String).count "bb" = 1 := by decide
  have hraw_aa : rawTokW ["aa aa bb"] [] (docToks ["aa aa bb"] 0) "aa" = 2 := by
    rw [rawTokW, if_pos (by rw [hvocab]; decide), htok, hlen, hdfa, hidf, hca]
    norm_num
  have hraw_bb : rawTokW ["aa aa bb"] [] (docToks ["aa aa bb"] 0) "bb" = 1 := by
    rw [rawTokW, if_pos (by rw [hvocab]; decide), htok, hlen, hdfb, hidf, hcb]
    norm_num
  have hnorm : tokNorm ["aa aa bb"] [] (docToks ["aa aa bb"] 0) = Real.sqrt 5 := by
    rw [tokNorm, hsumf (fun t => rawTokW ["aa aa bb"] [] (docToks ["aa aa bb"] 0) t ^ 2)]
    rw [hraw_aa, hraw_bb]
    norm_num
  have hs5 : 1 < Real.sqrt 5 := by
    have := Real.sqrt_lt_sqrt (by norm_num : (0:ℝ) ≤ 1) (by norm_num : (1:ℝ) < 5)
    rwa [Real.sqrt_one] at this
  have hlhs : docW ["aa aa bb"] [] 0 "aa" = 2 / Real.sqrt 5 := by
    rw [docW, tokW, hraw_aa, hnorm]
  have hrhs : ((docToks ["aa aa bb"] 0).count "aa" : ℝ) *
      idfR (["aa aa bb"] : List String).length (dfN ["aa aa bb"] "aa") = 2 := by
    rw [htok, hlen, hdfa, hidf, hca]
    norm_num
  rw [hlhs, hrhs]
  exact ne_of_lt (div_lt_self (by norm_num) hs5)

/-- C1: the query cell drops one of the matching documents. With the
two-document corpus `["budget budget", "budget"]` and query `"budget"`,
both documents have similarity 1 > 0, so the claim demands both be
returned; the code computes `x = np.count_nonzero(cosine_sim) = 2` and
returns `argsort()[:-x:-1]`, a slice of length `x - 1 = 1`. -/
theorem C1_code_bug :
    simsList ["budget budget", "budget"] [] "budget" = [1, 1] ∧
    countNonzero (simsList ["budget budget", "budget"] [] "budget") = 2 ∧
    (related_email_indices ["budget budget", "budget"] [] "budget").length = 1 := by
  have htok0 : docToks ["budget budget", "budget"] 0 = ["budget", "budget"] := by decide
  have htok1 : docToks ["budget budget", "budget"] 1 = ["budget"] := by decide
  have htokq : sklearnTokenize "budget" = ["budget"] := by decide
  have hvocab : buildVocab (corpusToks ["budget budget", "budget"]) [] = ["budget"] := by
    decide
  have hsumf : ∀ f : String → ℝ,
      (∑ t in vocabF ["budget budget", "budget"] [], f t) = f "budget" := by
    intro f
    rw [vocabF, hvocab, List.toFinset_cons, List.toFinset_nil,
      Finset.sum_insert (by decide), Finset.sum_empty, add_zero]
  have hlen : (["budget budget", "budget"] : List String).length = 2 := rfl
  have hdfb : dfN ["budget budget", "budget"] "budget" = 2 := by decide
  have hidf : idfR 2 2 = 1 := by
    rw [idfR]
    norm_num
  have hc2 : (["budget", "budget"] : List String).count "budget" = 2 := by decide
  have hc1 : (["budget"] : List String).count "budget" = 1 := by decide
  have hraw0 : rawTokW ["budget budget", "budget"] [] ["budget", "budget"] "budget" = 2 := by
    rw [rawTokW, if_pos (by rw [hvocab]; decide), hlen, hdfb, hidf, hc2]
    norm_num
  have hraw1 : rawTokW ["budget budget", "budget"] [] ["budget"] "budget" = 1 := by
    rw [rawTokW, if_pos (by rw [hvocab]; decide), hlen, hdfb, hidf, hc1]
    norm_num
  have hnorm0 : tokNorm ["budget budget", "budget"] [] ["budget", "budget"] = 2 := by
    rw [tokNorm,
      hsumf (fun t => rawTokW ["budget budget", "budget"] [] ["budget", "budget"] t ^ 2),
      hraw0]
    rw [show ((2:ℝ) ^ 2) = 2 ^ 2 by norm_num, Real.sqrt_sq (by norm_num : (0:ℝ) ≤ 2)]
  have hnorm1 : tokNorm ["budget budget", "budget"] [] ["budget"] = 1 := by
    rw [tokNorm,
      hsumf (fun t => rawTokW ["budget budget", "budget"] [] ["budget"] t ^ 2),
      hraw1]
    norm_num
  have hsim0 : simScore ["budget budget", "budget"] [] "budget" 0 = 1 := by
    rw [simScore,
      hsumf (fun t => queryW ["budget budget", "budget"] [] "budget" t *
        docW ["budget budget", "budget"] [] 0 t),
      queryW, docW, tokW, tokW, htokq, htok0, hraw0, hraw1, hnorm0, hnorm1]
    norm_num
  have hsim1 : simScore ["budget budget", "budget"] [] "budget" 1 = 1 := by
    rw [simScore,
      hsumf (fun t => queryW ["budget budget", "budget"] [] "budget" t *
        docW ["budget budget", "budget"] [] 1 t),
      queryW, docW, tokW, tokW, htokq, htok1, hraw1, hnorm1]
    norm_num
  have hsims : simsList ["budget budget", "budget"] [] "budget" = [1, 1] := by
    rw [simsList, hlen, show List.range 2 = [0, 1] from rfl, List.map_cons,
      List.map_cons, List.map_nil, hsim0, hsim1]
  have hcount : countNonzero ([1, 1] : List ℝ) = 2 := by
    rw [countNonzero]
    rw [List.filter_cons_of_pos (by simp), List.filter_cons_of_pos (by simp),
      List.filter_nil]
    rfl
  refine ⟨hsims, by rw [hsims, hcount], ?_⟩
  rw [related_email_indices, hsims, hcount, pySliceTop,
    if_neg (by norm_num : ¬(2 : Nat) = 0)]
  have hlen2 : (argsortR [1, 1]).length = 2 := by
    rw [argsortR, List.length_insertionSort, List.length_range]
    rfl
  rw [List.length_take, List.length_reverse, hlen2]
  norm_num
